import Mathlib

/-!
Shallow embedding of `catalog/PartitionSchemeHeader.hpp` from the quickstep
repository, together with proofs about the partition-id assignment logic.

Modelling conventions:

* A `PartitionValues` tuple is a `List V` for an abstract value type `V`
  (`TypedValue` is opaque here); attribute types are an abstract type `T`.
* The external comparator registry (`LessComparison::Instance()` /
  `EqualComparison::Instance()` with `makeUncheckedComparatorForTypes`) is a
  `CmpProvider` record of Boolean comparators indexed by the attribute type.
  The comparator vectors `less_unchecked_comparators_` /
  `equal_unchecked_comparators_` are built in the constructor from
  `partition_attr_types_` position by position, so position `i`'s comparator
  is the provider applied to `partition_attr_types_[i]`.
* `HashCompositeKey` (from `utility/CompositeHash.hpp`, external) is an
  opaque function parameter `List V → Nat`.
* `std::size_t` subtraction `n - 1` wraps modulo `2 ^ 64`; `sizeTSub1` models
  it exactly.  Indexing `std::vector::operator[]` out of range is undefined
  behaviour; it is modelled by `List.getElem?`, so an out-of-range access
  makes the function return `none`.
-/

namespace Quickstep

/-- Modulus of `std::size_t` arithmetic on the target platform (64-bit,
the literal is `2 ^ 64`). -/
def sizeTMod : Nat := 18446744073709551616

/-- Models the C++ expression `n - 1` on an unsigned 64-bit quantity: it
wraps to `2 ^ 64 - 1` when `n = 0`. -/
def sizeTSub1 (n : Nat) : Nat := (n + (sizeTMod - 1)) % sizeTMod

/-- External comparator provider: given an attribute type, yields the
unchecked less-than and equality comparators for two instances of that type
(`makeUncheckedComparatorForTypes` on `LessComparison` / `EqualComparison`). -/
structure CmpProvider (V T : Type) where
  less : T → V → V → Bool
  equal : T → V → V → Bool

/-- `PartitionSchemeHeader::PartitionType`. -/
inductive PartitionType where
  | kHash
  | kRange
deriving DecidableEq

/-- Fields of a `HashPartitionSchemeHeader`: the base-class fields that the
hash strategy uses (`num_partitions_` and `partition_attribute_ids_`; the
partition-type tag is implicit in the variant). -/
structure HashHeaderData where
  num_partitions : Nat
  partition_attribute_ids : List Nat

/-- Fields of a `RangePartitionSchemeHeader`: base-class fields plus
`partition_attr_types_` and `partition_range_boundaries_`.  The comparator
vectors are not stored: they are determined by `partition_attr_types_` and
the provider (see the module docstring). -/
structure RangeHeaderData (V T : Type) where
  num_partitions : Nat
  partition_attribute_ids : List Nat
  partition_attr_types : List T
  partition_range_boundaries : List (List V)

variable {V T : Type} [Inhabited V] [Inhabited T]

/-- `less_unchecked_comparators_[i]->compareTypedValues a b`. -/
def attrLess (p : CmpProvider V T) (h : RangeHeaderData V T) (i : Nat) (a b : V) : Bool :=
  p.less (h.partition_attr_types.getD i default) a b

/-- `equal_unchecked_comparators_[i]->compareTypedValues a b`. -/
def attrEqual (p : CmpProvider V T) (h : RangeHeaderData V T) (i : Nat) (a b : V) : Bool :=
  p.equal (h.partition_attr_types.getD i default) a b

/-- The loop body of `RangePartitionSchemeHeader::lessThan`, starting at
position `i` (the C++ loop runs `attr_index` from `0` while
`attr_index < partition_attribute_ids_.size()`): at position `i`, if the
less-than comparator holds the loop `break`s (and the function then returns
`true`); otherwise if the equality comparator holds it returns `false` when
`i` is the last position and advances to `i + 1` otherwise; otherwise it
returns `false`.  Leaving the loop (`i` beyond the last position) returns
`true`. -/
def lessThanFrom (p : CmpProvider V T) (h : RangeHeaderData V T)
    (lhs rhs : List V) (i : Nat) : Bool :=
  if hik : i < h.partition_attribute_ids.length then
    if attrLess p h i (lhs.getD i default) (rhs.getD i default) then
      true
    else if attrEqual p h i (lhs.getD i default) (rhs.getD i default) then
      if i = h.partition_attribute_ids.length - 1 then
        false
      else
        lessThanFrom p h lhs rhs (i + 1)
    else
      false
  else
    true
termination_by h.partition_attribute_ids.length - i
decreasing_by omega

/-- `RangePartitionSchemeHeader::lessThan(lhs, rhs)`. -/
def lessThan (p : CmpProvider V T) (h : RangeHeaderData V T) (lhs rhs : List V) : Bool :=
  lessThanFrom p h lhs rhs 0

/-- The `j`-th boundary tuple `partition_range_boundaries_[j]` (as a total
function; used in statements only at indices that are in range). -/
def bnd (h : RangeHeaderData V T) (j : Nat) : List V :=
  h.partition_range_boundaries.getD j []

/-- The binary-search loop of `RangePartitionSchemeHeader::getPartitionId`:
`while (start < end) { mid = start + ((end - start) >> 1); if (lessThan(v,
boundaries[mid])) end = mid; else start = mid + 1; }` followed by
`return start;`.  The vector access is checked: an out-of-range index makes
the result `none` (undefined behaviour in C++). -/
def rangeSearchLoop (p : CmpProvider V T) (h : RangeHeaderData V T)
    (v : List V) (start e : Nat) : Option Nat :=
  if hlt : start < e then
    match h.partition_range_boundaries[start + (e - start) / 2]? with
    | none => none
    | some b =>
      if lessThan p h v b then
        rangeSearchLoop p h v start (start + (e - start) / 2)
      else
        rangeSearchLoop p h v (start + (e - start) / 2 + 1) e
  else
    some start
termination_by e - start
decreasing_by
  · omega
  · omega

/-- `RangePartitionSchemeHeader::getPartitionId(value_of_attributes)`:
`start = 0`, `end = partition_range_boundaries_.size() - 1` (unsigned
subtraction, so it wraps for an empty boundary vector); if the values are
not less than `partition_range_boundaries_[end]` return
`num_partitions_ - 1`, else run the binary-search loop. -/
def RangeHeaderData.getPartitionId (p : CmpProvider V T) (h : RangeHeaderData V T)
    (v : List V) : Option Nat :=
  match h.partition_range_boundaries[sizeTSub1 h.partition_range_boundaries.length]? with
  | none => none
  | some last =>
    if ! lessThan p h v last then
      some (sizeTSub1 h.num_partitions)
    else
      rangeSearchLoop p h v 0 (sizeTSub1 h.partition_range_boundaries.length)

/-- `HashPartitionSchemeHeader::getPartitionId(value_of_attributes)`:
`HashCompositeKey(value_of_attributes) % num_partitions_`.  The modulo with
`num_partitions_ = 0` is undefined behaviour in C++ and is modelled as
`none`. -/
def HashHeaderData.getPartitionId (hashCompositeKey : List V → Nat)
    (h : HashHeaderData) (v : List V) : Option Nat :=
  if h.num_partitions = 0 then none
  else some (hashCompositeKey v % h.num_partitions)

/-- `RangePartitionSchemeHeader::checkPartitionRangeBoundaries` as a Boolean
(the C++ raises a fatal `CHECK` failure exactly when this is `false`): every
boundary tuple has the size of `partition_attribute_ids_`, and for every
`part_id` from `1` to `size - 1`, `lessThan(boundaries[part_id - 1],
boundaries[part_id])` holds. -/
def RangeHeaderData.checkPartitionRangeBoundaries (p : CmpProvider V T)
    (h : RangeHeaderData V T) : Bool :=
  (h.partition_range_boundaries.all fun b =>
    h.partition_attribute_ids.length == b.length) &&
  ((List.range h.partition_range_boundaries.length).all fun part_id =>
    (part_id == 0) ||
      lessThan p h (bnd h (part_id - 1)) (bnd h part_id))

/-- The debug-build checks performed by the `RangePartitionSchemeHeader`
constructor: `DCHECK_EQ(partition_attribute_ids_.size(),
partition_attr_types_.size())`, `DCHECK_EQ(num_partitions - 1,
partition_range_boundaries_.size())` (unsigned subtraction), and
`checkPartitionRangeBoundaries()` (under `QUICKSTEP_DEBUG`). -/
def RangeHeaderData.ctorDebugChecks (p : CmpProvider V T)
    (h : RangeHeaderData V T) : Bool :=
  (h.partition_attribute_ids.length == h.partition_attr_types.length) &&
  (sizeTSub1 h.num_partitions == h.partition_range_boundaries.length) &&
  h.checkPartitionRangeBoundaries p

/-- Boundary tuples are pairwise adjacent-ascending under `lessThan` (what
`checkPartitionRangeBoundaries` verifies). -/
def ascendingBoundaries (p : CmpProvider V T) (h : RangeHeaderData V T) : Prop :=
  ∀ i, i + 1 < h.partition_range_boundaries.length →
    lessThan p h (bnd h i) (bnd h (i + 1)) = true

/-- The polymorphic `PartitionSchemeHeader` (closed over its two concrete
variants, `HashPartitionSchemeHeader` and `RangePartitionSchemeHeader`). -/
inductive PartitionSchemeHeaderModel (V T : Type) where
  | hash (hdr : HashHeaderData)
  | range (hdr : RangeHeaderData V T)

/-- Virtual dispatch of `getPartitionId` over the two variants. -/
def getPartitionIdOf (hashCompositeKey : List V → Nat) (p : CmpProvider V T) :
    PartitionSchemeHeaderModel V T → List V → Option Nat
  | .hash hdr, v => hdr.getPartitionId hashCompositeKey v
  | .range hdr, v => hdr.getPartitionId p v

/-- `PartitionSchemeHeader::getPartitionType()`. -/
def headerPartitionType : PartitionSchemeHeaderModel V T → PartitionType
  | .hash _ => .kHash
  | .range _ => .kRange

/-- `PartitionSchemeHeader::getNumPartitions()`. -/
def headerNumPartitions : PartitionSchemeHeaderModel V T → Nat
  | .hash hdr => hdr.num_partitions
  | .range hdr => hdr.num_partitions

/-- `PartitionSchemeHeader::getPartitionAttributeIds()`. -/
def headerAttributeIds : PartitionSchemeHeaderModel V T → List Nat
  | .hash hdr => hdr.partition_attribute_ids
  | .range hdr => hdr.partition_attribute_ids

/-- Consistency laws for the comparator provider, as required of the
external Comparator Provider: less-than is transitive, equality is
transitive, each is stable under the other on either side, and less-than
excludes equality. -/
structure LawfulCmp (p : CmpProvider V T) : Prop where
  less_trans : ∀ t a b c, p.less t a b = true → p.less t b c = true → p.less t a c = true
  eq_trans : ∀ t a b c, p.equal t a b = true → p.equal t b c = true → p.equal t a c = true
  less_eq_right : ∀ t a b c, p.less t a b = true → p.equal t b c = true → p.less t a c = true
  eq_less_left : ∀ t a b c, p.equal t a b = true → p.less t b c = true → p.less t a c = true
  less_not_eq : ∀ t a b, p.less t a b = true → p.equal t a b = false

/-- Concrete comparator provider over natural-number values (one value
type), used for concrete instances of the theorems. -/
def natProvider : CmpProvider Nat Unit where
  less := fun _ a b => decide (a < b)
  equal := fun _ a b => decide (a = b)

theorem natProvider_lawful : LawfulCmp natProvider := by
  refine ⟨?_, ?_, ?_, ?_, ?_⟩ <;> intros <;> simp_all [natProvider] <;> omega

/-- A 3-partition range header over one integer attribute with boundaries
`[10]` and `[20]` (the spec's concrete range scenario). -/
def exampleRangeHeader : RangeHeaderData Nat Unit where
  num_partitions := 3
  partition_attribute_ids := [0]
  partition_attr_types := [()]
  partition_range_boundaries := [[10], [20]]

/-- A 4-partition range header over one integer attribute with boundaries
`[3]`, `[8]`, `[12]`. -/
def exampleRangeHeader2 : RangeHeaderData Nat Unit where
  num_partitions := 4
  partition_attribute_ids := [0]
  partition_attr_types := [()]
  partition_range_boundaries := [[3], [8], [12]]

/-- The degenerate range header: one partition, zero boundary tuples. -/
def degenerateRangeHeader : RangeHeaderData Nat Unit where
  num_partitions := 1
  partition_attribute_ids := [0]
  partition_attr_types := [()]
  partition_range_boundaries := []

/-- A 4-partition hash header over one attribute. -/
def exampleHashHeader : HashHeaderData where
  num_partitions := 4
  partition_attribute_ids := [0]

/-- A 1-partition hash header over one attribute. -/
def unitHashHeader : HashHeaderData where
  num_partitions := 1
  partition_attribute_ids := [0]

/-- A concrete composite-hash function with `hash [7] = 23` (the spec's
concrete hash scenario). -/
def exampleHashFn : List Nat → Nat := fun v => if v = [7] then 23 else 0

/-! ### Small comparator wrappers -/

theorem attrLess_trans {p : CmpProvider V T} {h : RangeHeaderData V T}
    (laws : LawfulCmp p) {i : Nat} {a b c : V}
    (hab : attrLess p h i a b = true) (hbc : attrLess p h i b c = true) :
    attrLess p h i a c = true :=
  laws.less_trans _ _ _ _ hab hbc

theorem attrEqual_trans {p : CmpProvider V T} {h : RangeHeaderData V T}
    (laws : LawfulCmp p) {i : Nat} {a b c : V}
    (hab : attrEqual p h i a b = true) (hbc : attrEqual p h i b c = true) :
    attrEqual p h i a c = true :=
  laws.eq_trans _ _ _ _ hab hbc

theorem attrLess_eq_right {p : CmpProvider V T} {h : RangeHeaderData V T}
    (laws : LawfulCmp p) {i : Nat} {a b c : V}
    (hab : attrLess p h i a b = true) (hbc : attrEqual p h i b c = true) :
    attrLess p h i a c = true :=
  laws.less_eq_right _ _ _ _ hab hbc

theorem attrEqual_less_left {p : CmpProvider V T} {h : RangeHeaderData V T}
    (laws : LawfulCmp p) {i : Nat} {a b c : V}
    (hab : attrEqual p h i a b = true) (hbc : attrLess p h i b c = true) :
    attrLess p h i a c = true :=
  laws.eq_less_left _ _ _ _ hab hbc

theorem attrEqual_not_less {p : CmpProvider V T} {h : RangeHeaderData V T}
    (laws : LawfulCmp p) {i : Nat} {a b : V}
    (he : attrEqual p h i a b = true) : attrLess p h i a b = false := by
  cases hl : attrLess p h i a b
  · rfl
  · have := laws.less_not_eq _ _ _ hl
    rw [attrEqual] at he
    rw [this] at he
    cases he

/-! ### Unfolding lemmas for the recursive functions -/

theorem lessThanFrom_exit (p : CmpProvider V T) (h : RangeHeaderData V T)
    (lhs rhs : List V) (i : Nat) (hi : h.partition_attribute_ids.length ≤ i) :
    lessThanFrom p h lhs rhs i = true := by
  rw [lessThanFrom.eq_def, dif_neg (by omega)]

theorem lessThanFrom_step (p : CmpProvider V T) (h : RangeHeaderData V T)
    (lhs rhs : List V) (i : Nat) (hik : i < h.partition_attribute_ids.length) :
    lessThanFrom p h lhs rhs i =
      if attrLess p h i (lhs.getD i default) (rhs.getD i default) then true
      else if attrEqual p h i (lhs.getD i default) (rhs.getD i default) then
        (if i = h.partition_attribute_ids.length - 1 then false
         else lessThanFrom p h lhs rhs (i + 1))
      else false := by
  rw [lessThanFrom.eq_def, dif_pos hik]

theorem rangeSearchLoop_exit (p : CmpProvider V T) (h : RangeHeaderData V T)
    (v : List V) (start e : Nat) (hle : e ≤ start) :
    rangeSearchLoop p h v start e = some start := by
  rw [rangeSearchLoop.eq_def, dif_neg (by omega)]

theorem rangeSearchLoop_step (p : CmpProvider V T) (h : RangeHeaderData V T)
    (v : List V) (start e : Nat) (hlt : start < e) :
    rangeSearchLoop p h v start e =
      match h.partition_range_boundaries[start + (e - start) / 2]? with
      | none => none
      | some b =>
        if lessThan p h v b then
          rangeSearchLoop p h v start (start + (e - start) / 2)
        else
          rangeSearchLoop p h v (start + (e - start) / 2 + 1) e := by
  rw [rangeSearchLoop.eq_def, dif_pos hlt]

/-! ### Transitivity of the lexicographic comparison -/

theorem lessThanFrom_trans (p : CmpProvider V T) (h : RangeHeaderData V T)
    (laws : LawfulCmp p) :
    ∀ n i (a b c : List V), h.partition_attribute_ids.length - i ≤ n →
      lessThanFrom p h a b i = true → lessThanFrom p h b c i = true →
      lessThanFrom p h a c i = true := by
  intro n
  induction n with
  | zero =>
    intro i a b c hn _ _
    exact lessThanFrom_exit p h a c i (by omega)
  | succ n ih =>
    intro i a b c hn hab hbc
    by_cases hik : i < h.partition_attribute_ids.length
    case neg => exact lessThanFrom_exit p h a c i (by omega)
    rw [lessThanFrom_step p h a b i hik] at hab
    rw [lessThanFrom_step p h b c i hik] at hbc
    rw [lessThanFrom_step p h a c i hik]
    cases hLab : attrLess p h i (a.getD i default) (b.getD i default)
    · rw [hLab] at hab
      cases hEab : attrEqual p h i (a.getD i default) (b.getD i default)
      · rw [hEab] at hab
        simp at hab
      · rw [hEab] at hab
        by_cases hlast : i = h.partition_attribute_ids.length - 1
        · simp [hlast] at hab
        · have hrecab : lessThanFrom p h a b (i + 1) = true := by
            simpa [hlast] using hab
          cases hLbc : attrLess p h i (b.getD i default) (c.getD i default)
          · rw [hLbc] at hbc
            cases hEbc : attrEqual p h i (b.getD i default) (c.getD i default)
            · rw [hEbc] at hbc
              simp at hbc
            · rw [hEbc] at hbc
              have hrecbc : lessThanFrom p h b c (i + 1) = true := by
                simpa [hlast] using hbc
              have hEac := attrEqual_trans laws hEab hEbc
              have hrecac := ih (i + 1) a b c (by omega) hrecab hrecbc
              cases hLac : attrLess p h i (a.getD i default) (c.getD i default)
              · rw [hEac]
                simp [hlast, hrecac]
              · simp
          · have hac := attrEqual_less_left laws hEab hLbc
            rw [hac]
            simp
    · cases hLbc : attrLess p h i (b.getD i default) (c.getD i default)
      · rw [hLbc] at hbc
        cases hEbc : attrEqual p h i (b.getD i default) (c.getD i default)
        · rw [hEbc] at hbc
          simp at hbc
        · have hac := attrLess_eq_right laws hLab hEbc
          rw [hac]
          simp
      · have hac := attrLess_trans laws hLab hLbc
        rw [hac]
        simp

theorem lessThan_trans (p : CmpProvider V T) (h : RangeHeaderData V T)
    (laws : LawfulCmp p) {a b c : List V}
    (hab : lessThan p h a b = true) (hbc : lessThan p h b c = true) :
    lessThan p h a c = true :=
  lessThanFrom_trans p h laws h.partition_attribute_ids.length 0 a b c
    (by omega) hab hbc

/-! ### Component-wise equal tuples -/

theorem lessThanFrom_eqwise_false (p : CmpProvider V T) (h : RangeHeaderData V T)
    (laws : LawfulCmp p) (v w : List V) :
    ∀ n j, h.partition_attribute_ids.length - j ≤ n →
      j < h.partition_attribute_ids.length →
      (∀ i, i < h.partition_attribute_ids.length →
        attrEqual p h i (v.getD i default) (w.getD i default) = true) →
      lessThanFrom p h v w j = false := by
  intro n
  induction n with
  | zero =>
    intro j hn hj _
    omega
  | succ n ih =>
    intro j hn hj heq
    rw [lessThanFrom_step p h v w j hj]
    have he := heq j hj
    have hl := attrEqual_not_less laws he
    rw [hl, he]
    by_cases hlast : j = h.partition_attribute_ids.length - 1
    · simp [hlast]
    · have hrec := ih (j + 1) (by omega) (by omega) heq
      simp [hlast, hrec]

/-- A tuple component-wise equal to `w` is not `lessThan`-below `w`. -/
theorem lessThan_eqwise_false (p : CmpProvider V T) (h : RangeHeaderData V T)
    (laws : LawfulCmp p) {v w : List V}
    (hk : 0 < h.partition_attribute_ids.length)
    (heq : ∀ i, i < h.partition_attribute_ids.length →
      attrEqual p h i (v.getD i default) (w.getD i default) = true) :
    lessThan p h v w = false :=
  lessThanFrom_eqwise_false p h laws v w h.partition_attribute_ids.length 0
    (by omega) hk heq

theorem lessThanFrom_eqwise_mono (p : CmpProvider V T) (h : RangeHeaderData V T)
    (laws : LawfulCmp p) (a b c : List V) :
    ∀ n j, h.partition_attribute_ids.length - j ≤ n →
      (∀ i, i < h.partition_attribute_ids.length →
        attrEqual p h i (a.getD i default) (b.getD i default) = true) →
      lessThanFrom p h b c j = true → lessThanFrom p h a c j = true := by
  intro n
  induction n with
  | zero =>
    intro j hn _ _
    exact lessThanFrom_exit p h a c j (by omega)
  | succ n ih =>
    intro j hn heq hbc
    by_cases hjk : j < h.partition_attribute_ids.length
    case neg => exact lessThanFrom_exit p h a c j (by omega)
    rw [lessThanFrom_step p h b c j hjk] at hbc
    rw [lessThanFrom_step p h a c j hjk]
    cases hLbc : attrLess p h j (b.getD j default) (c.getD j default)
    · rw [hLbc] at hbc
      cases hEbc : attrEqual p h j (b.getD j default) (c.getD j default)
      · rw [hEbc] at hbc
        simp at hbc
      · rw [hEbc] at hbc
        by_cases hlast : j = h.partition_attribute_ids.length - 1
        · simp [hlast] at hbc
        · have hrec : lessThanFrom p h b c (j + 1) = true := by
            simpa [hlast] using hbc
          have hrecac := ih (j + 1) (by omega) heq hrec
          have hEac := attrEqual_trans laws (heq j hjk) hEbc
          cases hLac : attrLess p h j (a.getD j default) (c.getD j default)
          · rw [hEac]
            simp [hlast, hrecac]
          · simp
    · have hLac := attrEqual_less_left laws (heq j hjk) hLbc
      rw [hLac]
      simp

/-- A tuple component-wise equal to `b` is `lessThan`-below anything `b`
is below. -/
theorem lessThan_eqwise_mono (p : CmpProvider V T) (h : RangeHeaderData V T)
    (laws : LawfulCmp p) {a b c : List V}
    (heq : ∀ i, i < h.partition_attribute_ids.length →
      attrEqual p h i (a.getD i default) (b.getD i default) = true)
    (hbc : lessThan p h b c = true) : lessThan p h a c = true :=
  lessThanFrom_eqwise_mono p h laws a b c h.partition_attribute_ids.length 0
    (by omega) heq hbc

/-! ### Ascending boundaries -/

theorem bnd_lt_of_adjacent (p : CmpProvider V T) (h : RangeHeaderData V T)
    (laws : LawfulCmp p) (hasc : ascendingBoundaries p h) :
    ∀ d i, i + d + 1 < h.partition_range_boundaries.length →
      lessThan p h (bnd h i) (bnd h (i + d + 1)) = true := by
  intro d
  induction d with
  | zero =>
    intro i hi
    exact hasc i hi
  | succ d ih =>
    intro i hi
    have h1 := ih i (by omega)
    have h2 := hasc (i + d + 1) (by omega)
    have he : i + (d + 1) + 1 = (i + d + 1) + 1 := by omega
    rw [he]
    exact lessThan_trans p h laws h1 h2

/-- Adjacent-ascending boundaries are fully strictly ascending. -/
theorem bnd_lt_of_lt (p : CmpProvider V T) (h : RangeHeaderData V T)
    (laws : LawfulCmp p) (hasc : ascendingBoundaries p h) {i j : Nat}
    (hij : i < j) (hj : j < h.partition_range_boundaries.length) :
    lessThan p h (bnd h i) (bnd h j) = true := by
  have he : j = i + (j - i - 1) + 1 := by omega
  rw [he]
  exact bnd_lt_of_adjacent p h laws hasc (j - i - 1) i (by omega)

/-- The predicate `lessThan v (bnd j)` is monotone in `j` over in-range
indices. -/
theorem lessThan_bnd_mono (p : CmpProvider V T) (h : RangeHeaderData V T)
    (laws : LawfulCmp p) (hasc : ascendingBoundaries p h) (v : List V)
    {i j : Nat} (hij : i ≤ j) (hj : j < h.partition_range_boundaries.length)
    (hi : lessThan p h v (bnd h i) = true) :
    lessThan p h v (bnd h j) = true := by
  rcases Nat.eq_or_lt_of_le hij with rfl | hlt
  · exact hi
  · exact lessThan_trans p h laws hi (bnd_lt_of_lt p h laws hasc hlt hj)

/-! ### Indexing the boundary vector -/

theorem bnd_getElem (h : RangeHeaderData V T) {j : Nat}
    (hj : j < h.partition_range_boundaries.length) :
    h.partition_range_boundaries[j]? = some (bnd h j) := by
  rw [List.getElem?_eq_getElem hj, bnd, List.getD_eq_getElem?_getD,
    List.getElem?_eq_getElem hj]
  rfl

theorem sizeTSub1_eq {n : Nat} (h1 : 1 ≤ n) (h2 : n ≤ sizeTMod) :
    sizeTSub1 n = n - 1 := by
  simp only [sizeTSub1, sizeTMod] at h2 ⊢
  omega

theorem sizeTSub1_zero : sizeTSub1 0 = sizeTMod - 1 := by
  simp only [sizeTSub1, sizeTMod]

/-! ### The binary-search loop -/

/-- With an in-range upper index, the loop always returns an index between
`start` and `e` (in particular it never accesses the boundary vector out of
range). -/
theorem rangeSearchLoop_total (p : CmpProvider V T) (h : RangeHeaderData V T)
    (v : List V) :
    ∀ n start e, e - start ≤ n → start ≤ e →
      e < h.partition_range_boundaries.length →
      ∃ m, rangeSearchLoop p h v start e = some m ∧ start ≤ m ∧ m ≤ e := by
  intro n
  induction n with
  | zero =>
    intro start e hn hse _
    have he : e = start := by omega
    subst he
    exact ⟨e, rangeSearchLoop_exit p h v e e (Nat.le_refl e), Nat.le_refl e,
      Nat.le_refl e⟩
  | succ n ih =>
    intro start e hn hse hlen
    by_cases hlt : start < e
    case neg =>
      have he : e = start := by omega
      subst he
      exact ⟨e, rangeSearchLoop_exit p h v e e (Nat.le_refl e), Nat.le_refl e,
        Nat.le_refl e⟩
    rw [rangeSearchLoop_step p h v start e hlt]
    have hmid : start + (e - start) / 2 < e := by omega
    rw [bnd_getElem h (by omega)]
    cases hless : lessThan p h v (bnd h (start + (e - start) / 2))
    · obtain ⟨m, hm, h1, h2⟩ :=
        ih (start + (e - start) / 2 + 1) e (by omega) (by omega) hlen
      exact ⟨m, by simp [hless, hm], by omega, h2⟩
    · obtain ⟨m, hm, h1, h2⟩ :=
        ih start (start + (e - start) / 2) (by omega) (by omega) (by omega)
      exact ⟨m, by simp [hless, hm], h1, by omega⟩

/-- Characterization of the loop: in ascending boundaries it returns the
least in-range index `m ≥ start` at which `lessThan v (bnd m)` holds, or
`e` when there is none below `e`. -/
theorem rangeSearchLoop_char (p : CmpProvider V T) (h : RangeHeaderData V T)
    (v : List V) (laws : LawfulCmp p) (hasc : ascendingBoundaries p h) :
    ∀ n start e, e - start ≤ n → start ≤ e →
      e < h.partition_range_boundaries.length →
      (∀ i, i < start → lessThan p h v (bnd h i) = false) →
      ∃ m, rangeSearchLoop p h v start e = some m ∧ start ≤ m ∧ m ≤ e ∧
        (∀ i, i < m → lessThan p h v (bnd h i) = false) ∧
        (lessThan p h v (bnd h m) = true ∨ m = e) := by
  intro n
  induction n with
  | zero =>
    intro start e hn hse _ hbelow
    have he : e = start := by omega
    subst he
    exact ⟨e, rangeSearchLoop_exit p h v e e (Nat.le_refl e), Nat.le_refl e,
      Nat.le_refl e, hbelow, Or.inr rfl⟩
  | succ n ih =>
    intro start e hn hse hlen hbelow
    by_cases hlt : start < e
    case neg =>
      have he : e = start := by omega
      subst he
      exact ⟨e, rangeSearchLoop_exit p h v e e (Nat.le_refl e), Nat.le_refl e,
        Nat.le_refl e, hbelow, Or.inr rfl⟩
    rw [rangeSearchLoop_step p h v start e hlt]
    have hmid : start + (e - start) / 2 < e := by omega
    rw [bnd_getElem h (by omega)]
    cases hless : lessThan p h v (bnd h (start + (e - start) / 2))
    · have hbelow' : ∀ i, i < start + (e - start) / 2 + 1 →
          lessThan p h v (bnd h i) = false := by
        intro i hi
        by_cases his : i < start
        · exact hbelow i his
        · cases hpi : lessThan p h v (bnd h i)
          · rfl
          · have := lessThan_bnd_mono p h laws hasc v
              (show i ≤ start + (e - start) / 2 by omega) (by omega) hpi
            rw [this] at hless
            cases hless
      obtain ⟨m, hm, h1, h2, h3, h4⟩ :=
        ih (start + (e - start) / 2 + 1) e (by omega) (by omega) hlen hbelow'
      exact ⟨m, by simp [hless, hm], by omega, h2, h3, h4⟩
    · obtain ⟨m, hm, h1, h2, h3, h4⟩ :=
        ih start (start + (e - start) / 2) (by omega) (by omega) (by omega)
          hbelow
      refine ⟨m, by simp [hless, hm], h1, by omega, h3, ?_⟩
      rcases h4 with h4 | h4
      · exact Or.inl h4
      · exact Or.inl (h4 ▸ hless)

/-- Characterization of `RangePartitionSchemeHeader::getPartitionId` on a
well-formed descriptor: it returns some partition id `m ≤ P - 1` such that
`lessThan v (bnd i)` fails for every `i < m`, and holds at `m` itself
whenever `m < P - 1`. -/
theorem getPartitionId_char (p : CmpProvider V T) (h : RangeHeaderData V T)
    (v : List V) (laws : LawfulCmp p) (hasc : ascendingBoundaries p h)
    (hP : 2 ≤ h.num_partitions) (hPM : h.num_partitions ≤ sizeTMod)
    (hlen : h.partition_range_boundaries.length = h.num_partitions - 1) :
    ∃ m, h.getPartitionId p v = some m ∧ m ≤ h.num_partitions - 1 ∧
      (∀ i, i < m → lessThan p h v (bnd h i) = false) ∧
      (m < h.num_partitions - 1 → lessThan p h v (bnd h m) = true) := by
  have hMbig : (1000 : Nat) < sizeTMod := by simp [sizeTMod]
  have hlen1 : 1 ≤ h.partition_range_boundaries.length := by omega
  have hsub : sizeTSub1 h.partition_range_boundaries.length =
      h.partition_range_boundaries.length - 1 :=
    sizeTSub1_eq hlen1 (by omega)
  have hsubP : sizeTSub1 h.num_partitions = h.num_partitions - 1 :=
    sizeTSub1_eq (by omega) hPM
  unfold RangeHeaderData.getPartitionId
  rw [hsub, bnd_getElem h (by omega)]
  cases hlast : lessThan p h v (bnd h (h.partition_range_boundaries.length - 1))
  · refine ⟨h.num_partitions - 1, by simp [hlast, hsubP], Nat.le_refl _, ?_, ?_⟩
    · intro i hi
      cases hpi : lessThan p h v (bnd h i)
      · rfl
      · have := lessThan_bnd_mono p h laws hasc v
          (show i ≤ h.partition_range_boundaries.length - 1 by omega)
          (by omega) hpi
        rw [this] at hlast
        cases hlast
    · intro hm
      omega
  · obtain ⟨m, hm, h1, h2, h3, h4⟩ :=
      rangeSearchLoop_char p h v laws hasc
        (h.partition_range_boundaries.length - 1) 0
        (h.partition_range_boundaries.length - 1) (by omega) (by omega)
        (by omega) (by omega)
    refine ⟨m, by simp [hlast, hm], by omega, h3, ?_⟩
    intro _
    rcases h4 with h4 | h4
    · exact h4
    · exact h4 ▸ hlast

/-! ### The lexicographic order as the spec words it -/

/-- Spec-side definition of the lexicographic order, following the spec's
wording (to be compared with the source's `lessThan`): scan attribute
positions left to right; at the first position where `lhs[i] < rhs[i]` (per
that position's less-than comparator) return `true`; if `lhs[i] == rhs[i]`
(per the equality comparator) continue to the next position; if neither
holds return `false`; if all `k` positions are equal return `false`. -/
def lexLessSpecFrom (p : CmpProvider V T) (types : List T) (k : Nat)
    (lhs rhs : List V) (i : Nat) : Bool :=
  if hik : i < k then
    if p.less (types.getD i default) (lhs.getD i default) (rhs.getD i default) then
      true
    else if p.equal (types.getD i default) (lhs.getD i default) (rhs.getD i default) then
      lexLessSpecFrom p types k lhs rhs (i + 1)
    else
      false
  else
    false
termination_by k - i
decreasing_by omega

theorem lexLessSpecFrom_exit (p : CmpProvider V T) (types : List T) (k : Nat)
    (lhs rhs : List V) (i : Nat) (hi : k ≤ i) :
    lexLessSpecFrom p types k lhs rhs i = false := by
  rw [lexLessSpecFrom.eq_def, dif_neg (by omega)]

theorem lexLessSpecFrom_step (p : CmpProvider V T) (types : List T) (k : Nat)
    (lhs rhs : List V) (i : Nat) (hik : i < k) :
    lexLessSpecFrom p types k lhs rhs i =
      if p.less (types.getD i default) (lhs.getD i default) (rhs.getD i default) then
        true
      else if p.equal (types.getD i default) (lhs.getD i default) (rhs.getD i default) then
        lexLessSpecFrom p types k lhs rhs (i + 1)
      else
        false := by
  rw [lexLessSpecFrom.eq_def, dif_pos hik]

/-- On a descriptor with at least one partitioning attribute, the source's
scanning loop agrees with the spec's wording at every in-range start
position. -/
theorem lessThanFrom_eq_spec (p : CmpProvider V T) (h : RangeHeaderData V T)
    (lhs rhs : List V) :
    ∀ n i, h.partition_attribute_ids.length - i ≤ n →
      i < h.partition_attribute_ids.length →
      lessThanFrom p h lhs rhs i =
        lexLessSpecFrom p h.partition_attr_types
          h.partition_attribute_ids.length lhs rhs i := by
  intro n
  induction n with
  | zero =>
    intro i hn hik
    omega
  | succ n ih =>
    intro i hn hik
    rw [lessThanFrom_step p h lhs rhs i hik,
      lexLessSpecFrom_step p h.partition_attr_types
        h.partition_attribute_ids.length lhs rhs i hik]
    have hless : attrLess p h i (lhs.getD i default) (rhs.getD i default) =
        p.less (h.partition_attr_types.getD i default) (lhs.getD i default)
          (rhs.getD i default) := rfl
    have hequal : attrEqual p h i (lhs.getD i default) (rhs.getD i default) =
        p.equal (h.partition_attr_types.getD i default) (lhs.getD i default)
          (rhs.getD i default) := rfl
    rw [hless, hequal]
    cases hl : p.less (h.partition_attr_types.getD i default) (lhs.getD i default)
        (rhs.getD i default)
    · cases he : p.equal (h.partition_attr_types.getD i default) (lhs.getD i default)
          (rhs.getD i default)
      · simp
      · by_cases hlast : i = h.partition_attribute_ids.length - 1
        · have : h.partition_attribute_ids.length ≤ i + 1 := by omega
          rw [lexLessSpecFrom_exit p h.partition_attr_types
            h.partition_attribute_ids.length lhs rhs (i + 1) this]
          simp [hlast]
        · have := ih (i + 1) (by omega) (by omega)
          simp [hlast, this]
    · simp

/-! ### Serialization (modelled from the spec) -/

/-- Modelled from the spec: the serialized descriptor record produced by
`getProto` and consumed by `ReconstructFromProto` (whose implementations
live in `CatalogPartitionSchemeHeader.cpp`, not part of the given sources):
a record with the strategy tag, partition count, attribute ids, and, for
Range only, the attribute types and boundary tuples. -/
structure SerializedHeader (V T : Type) where
  strategyTag : PartitionType
  partitionCount : Nat
  attributeIds : List Nat
  attributeTypes : List T
  boundaries : List (List V)

/-- Modelled from the spec: `PartitionSchemeHeader::getProto` produces a
self-describing record carrying the strategy tag, partition count,
attribute ids, and the strategy-specific payload (boundaries and types for
Range). -/
def getProtoOf : PartitionSchemeHeaderModel V T → SerializedHeader V T
  | .hash hdr =>
    ⟨.kHash, hdr.num_partitions, hdr.partition_attribute_ids, [], []⟩
  | .range hdr =>
    ⟨.kRange, hdr.num_partitions, hdr.partition_attribute_ids,
      hdr.partition_attr_types, hdr.partition_range_boundaries⟩

/-- Modelled from the spec: `PartitionSchemeHeader::ReconstructFromProto`
rebuilds the concrete strategy named by the record's strategy tag from the
record's fields. -/
def reconstructFromProto (s : SerializedHeader V T) :
    PartitionSchemeHeaderModel V T :=
  match s.strategyTag with
  | .kHash => .hash ⟨s.partitionCount, s.attributeIds⟩
  | .kRange =>
    .range ⟨s.partitionCount, s.attributeIds, s.attributeTypes, s.boundaries⟩

/-! ### The claims -/

/-- C1: for every range descriptor with partition count `P ≥ 2` and
ascending boundaries `b_0 .. b_{P-2}`, `getPartitionId(values)` returns `0`
when `values` is lexicographically less than `b_0`, returns `j`
(`0 < j < P-1`) when `b_{j-1} ≤ values < b_j`, and returns `P-1` when
`values ≥ b_{P-2}` (at-or-above being the failure of `lessThan`). -/
theorem claim1_range_partition_semantics
    (p : CmpProvider V T) (h : RangeHeaderData V T) (v : List V)
    (laws : LawfulCmp p) (hasc : ascendingBoundaries p h)
    (hP : 2 ≤ h.num_partitions) (hPM : h.num_partitions ≤ sizeTMod)
    (hlen : h.partition_range_boundaries.length = h.num_partitions - 1) :
    (lessThan p h v (bnd h 0) = true → h.getPartitionId p v = some 0) ∧
    (∀ j, 0 < j → j < h.num_partitions - 1 →
      lessThan p h v (bnd h (j - 1)) = false →
      lessThan p h v (bnd h j) = true →
      h.getPartitionId p v = some j) ∧
    (lessThan p h v (bnd h (h.num_partitions - 2)) = false →
      h.getPartitionId p v = some (h.num_partitions - 1)) := by
  obtain ⟨m, hm, hmle, hbelow, hat⟩ :=
    getPartitionId_char p h v laws hasc hP hPM hlen
  refine ⟨?_, ?_, ?_⟩
  · intro h0
    have hm0 : m = 0 := by
      by_contra hne
      have hb := hbelow 0 (by omega)
      rw [h0] at hb
      simp at hb
    rw [hm0] at hm
    exact hm
  · intro j hj0 hjP hjm1 hj
    have hmj : m = j := by
      rcases Nat.lt_trichotomy m j with hlt | heq | hgt
      · have hpm := hat (by omega)
        have hmono := lessThan_bnd_mono p h laws hasc v
          (show m ≤ j - 1 by omega) (show j - 1 < h.partition_range_boundaries.length by omega) hpm
        rw [hjm1] at hmono
        simp at hmono
      · exact heq
      · have hb := hbelow j hgt
        rw [hj] at hb
        simp at hb
    rw [hmj] at hm
    exact hm
  · intro hlast
    have hmP : m = h.num_partitions - 1 := by
      by_contra hne
      have hpm := hat (by omega)
      have hmono := lessThan_bnd_mono p h laws hasc v
        (show m ≤ h.num_partitions - 2 by omega)
        (show h.num_partitions - 2 < h.partition_range_boundaries.length by omega) hpm
      rw [hlast] at hmono
      simp at hmono
    rw [hmP] at hm
    exact hm

/-- C1 witness: the spec's concrete scenario (3 partitions, one integer
attribute, boundaries `[10]`, `[20]`) through `claim1_range_partition_semantics`. -/
theorem claim1_witness :
    exampleRangeHeader.getPartitionId natProvider [5] = some 0 ∧
    exampleRangeHeader.getPartitionId natProvider [10] = some 1 ∧
    exampleRangeHeader.getPartitionId natProvider [15] = some 1 ∧
    exampleRangeHeader.getPartitionId natProvider [20] = some 2 ∧
    exampleRangeHeader.getPartitionId natProvider [1000] = some 2 := by
  have hasc : ascendingBoundaries natProvider exampleRangeHeader := by
    intro i hi
    simp only [exampleRangeHeader, List.length_cons, List.length_nil] at hi
    have hi0 : i = 0 := by omega
    subst hi0
    simp [lessThan, lessThanFrom, attrLess, attrEqual, natProvider,
      exampleRangeHeader, bnd]
  refine ⟨?_, ?_, ?_, ?_, ?_⟩
  · exact (claim1_range_partition_semantics natProvider exampleRangeHeader [5]
      natProvider_lawful hasc (by decide) (by decide) (by decide)).1
      (by simp [lessThan, lessThanFrom, attrLess, attrEqual, natProvider,
        exampleRangeHeader, bnd])
  · exact (claim1_range_partition_semantics natProvider exampleRangeHeader [10]
      natProvider_lawful hasc (by decide) (by decide) (by decide)).2.1 1
      (by decide) (by decide)
      (by simp [lessThan, lessThanFrom, attrLess, attrEqual, natProvider,
        exampleRangeHeader, bnd])
      (by simp [lessThan, lessThanFrom, attrLess, attrEqual, natProvider,
        exampleRangeHeader, bnd])
  · exact (claim1_range_partition_semantics natProvider exampleRangeHeader [15]
      natProvider_lawful hasc (by decide) (by decide) (by decide)).2.1 1
      (by decide) (by decide)
      (by simp [lessThan, lessThanFrom, attrLess, attrEqual, natProvider,
        exampleRangeHeader, bnd])
      (by simp [lessThan, lessThanFrom, attrLess, attrEqual, natProvider,
        exampleRangeHeader, bnd])
  · exact (claim1_range_partition_semantics natProvider exampleRangeHeader [20]
      natProvider_lawful hasc (by decide) (by decide) (by decide)).2.2
      (by simp [lessThan, lessThanFrom, attrLess, attrEqual, natProvider,
        exampleRangeHeader, bnd])
  · exact (claim1_range_partition_semantics natProvider exampleRangeHeader [1000]
      natProvider_lawful hasc (by decide) (by decide) (by decide)).2.2
      (by simp [lessThan, lessThanFrom, attrLess, attrEqual, natProvider,
        exampleRangeHeader, bnd])

/-- C2: on a range descriptor with ascending boundaries, a values-tuple
component-wise equal (per the equality comparators) to boundary `b_j`
(`0 ≤ j ≤ P-2`) is assigned partition `j + 1`. -/
theorem claim2_boundary_exactness
    (p : CmpProvider V T) (h : RangeHeaderData V T) (v : List V) (j : Nat)
    (laws : LawfulCmp p) (hasc : ascendingBoundaries p h)
    (hP : 2 ≤ h.num_partitions) (hPM : h.num_partitions ≤ sizeTMod)
    (hlen : h.partition_range_boundaries.length = h.num_partitions - 1)
    (hk : 0 < h.partition_attribute_ids.length)
    (hj : j < h.partition_range_boundaries.length)
    (heq : ∀ i, i < h.partition_attribute_ids.length →
      attrEqual p h i (v.getD i default) ((bnd h j).getD i default) = true) :
    h.getPartitionId p v = some (j + 1) := by
  obtain ⟨m, hm, hmle, hbelow, hat⟩ :=
    getPartitionId_char p h v laws hasc hP hPM hlen
  have hpj : lessThan p h v (bnd h j) = false :=
    lessThan_eqwise_false p h laws hk heq
  have hmj : m = j + 1 := by
    rcases Nat.lt_trichotomy m (j + 1) with hlt | heq' | hgt
    · have hpm := hat (by omega)
      have hmono := lessThan_bnd_mono p h laws hasc v
        (show m ≤ j by omega) hj hpm
      rw [hpj] at hmono
      simp at hmono
    · exact heq'
    · by_cases hj1 : j + 1 < h.partition_range_boundaries.length
      · have hbj := hasc j hj1
        have hpj1 : lessThan p h v (bnd h (j + 1)) = true :=
          lessThan_eqwise_mono p h laws heq hbj
        have hb := hbelow (j + 1) hgt
        rw [hpj1] at hb
        simp at hb
      · omega
  rw [hmj] at hm
  exact hm

/-- C2 witness: on the 4-partition header with boundaries `[3]`, `[8]`,
`[12]`, the tuple `[8]` (equal to boundary index 1) lands in partition 2. -/
theorem claim2_witness :
    exampleRangeHeader2.getPartitionId natProvider [8] = some 2 := by
  have hasc : ascendingBoundaries natProvider exampleRangeHeader2 := by
    intro i hi
    simp only [exampleRangeHeader2, List.length_cons, List.length_nil] at hi
    have hcases : i = 0 ∨ i = 1 := by omega
    rcases hcases with rfl | rfl <;>
      simp [lessThan, lessThanFrom, attrLess, attrEqual, natProvider,
        exampleRangeHeader2, bnd]
  exact claim2_boundary_exactness natProvider exampleRangeHeader2 [8] 1
    natProvider_lawful hasc (by decide) (by decide) (by decide) (by decide)
    (by decide)
    (by
      intro i hi
      simp only [exampleRangeHeader2, List.length_cons, List.length_nil] at hi
      have hi0 : i = 0 := by omega
      subst hi0
      simp [attrEqual, natProvider, exampleRangeHeader2, bnd])

/-- C3: on a range descriptor with ascending boundaries, partition
assignment is monotone in the lexicographic order: `v1 < v2` implies
`getPartitionId v1 ≤ getPartitionId v2`. -/
theorem claim3_monotonicity
    (p : CmpProvider V T) (h : RangeHeaderData V T) (v1 v2 : List V)
    (laws : LawfulCmp p) (hasc : ascendingBoundaries p h)
    (hP : 2 ≤ h.num_partitions) (hPM : h.num_partitions ≤ sizeTMod)
    (hlen : h.partition_range_boundaries.length = h.num_partitions - 1)
    (h12 : lessThan p h v1 v2 = true) :
    ∃ m1 m2, h.getPartitionId p v1 = some m1 ∧
      h.getPartitionId p v2 = some m2 ∧ m1 ≤ m2 := by
  obtain ⟨m1, hm1, hle1, hb1, ha1⟩ :=
    getPartitionId_char p h v1 laws hasc hP hPM hlen
  obtain ⟨m2, hm2, hle2, hb2, ha2⟩ :=
    getPartitionId_char p h v2 laws hasc hP hPM hlen
  refine ⟨m1, m2, hm1, hm2, ?_⟩
  by_contra hgt
  push_neg at hgt
  have hp2 := ha2 (by omega)
  have hp1 : lessThan p h v1 (bnd h m2) = true :=
    lessThan_trans p h laws h12 hp2
  have hb := hb1 m2 hgt
  rw [hp1] at hb
  simp at hb

/-- C3 witness: `[5] < [9]` lexicographically on the 4-partition header,
and the assigned partitions are ordered accordingly. -/
theorem claim3_witness :
    ∃ m1 m2, exampleRangeHeader2.getPartitionId natProvider [5] = some m1 ∧
      exampleRangeHeader2.getPartitionId natProvider [9] = some m2 ∧
      m1 ≤ m2 := by
  have hasc : ascendingBoundaries natProvider exampleRangeHeader2 := by
    intro i hi
    simp only [exampleRangeHeader2, List.length_cons, List.length_nil] at hi
    have hcases : i = 0 ∨ i = 1 := by omega
    rcases hcases with rfl | rfl <;>
      simp [lessThan, lessThanFrom, attrLess, attrEqual, natProvider,
        exampleRangeHeader2, bnd]
  exact claim3_monotonicity natProvider exampleRangeHeader2 [5] [9]
    natProvider_lawful hasc (by decide) (by decide) (by decide)
    (by simp [lessThan, lessThanFrom, attrLess, attrEqual, natProvider,
      exampleRangeHeader2])

/-- C4: on a descriptor with at least one partitioning attribute, the range
strategy's `lessThan` is exactly the spec's first-differing-position
lexicographic scan: `true` exactly when the first position whose values are
not equal (per the equality comparator) has the left value less than the
right one (per the less-than comparator); all-equal tuples compare `false`. -/
theorem claim4_lessThan_is_lexicographic
    (p : CmpProvider V T) (h : RangeHeaderData V T) (lhs rhs : List V)
    (hk : 0 < h.partition_attribute_ids.length) :
    lessThan p h lhs rhs =
      lexLessSpecFrom p h.partition_attr_types
        h.partition_attribute_ids.length lhs rhs 0 :=
  lessThanFrom_eq_spec p h lhs rhs h.partition_attribute_ids.length 0
    (by omega) hk

/-- C4 witness: the source comparison and the spec-side scan agree on a
concrete pair, where both return `true`. -/
theorem claim4_witness :
    lessThan natProvider exampleRangeHeader2 [8] [12] =
      lexLessSpecFrom natProvider exampleRangeHeader2.partition_attr_types
        exampleRangeHeader2.partition_attribute_ids.length [8] [12] 0 ∧
    lessThan natProvider exampleRangeHeader2 [8] [12] = true := by
  constructor
  · exact claim4_lessThan_is_lexicographic natProvider exampleRangeHeader2
      [8] [12] (by decide)
  · simp [lessThan, lessThanFrom, attrLess, attrEqual, natProvider,
      exampleRangeHeader2]

/-- C5: for every hash descriptor with `P ≥ 1` and values-tuple of the
right length, `getPartitionId` is the composite hash modulo `P`, and it is
a pure function of the values. -/
theorem claim5_hash_mod {V : Type} (hashCompositeKey : List V → Nat)
    (h : HashHeaderData) (v : List V) (hP : 1 ≤ h.num_partitions)
    (hlen : v.length = h.partition_attribute_ids.length) :
    h.getPartitionId hashCompositeKey v =
      some (hashCompositeKey v % h.num_partitions) ∧
    (∀ w : List V, w = v →
      h.getPartitionId hashCompositeKey w =
        h.getPartitionId hashCompositeKey v) := by
  constructor
  · unfold HashHeaderData.getPartitionId
    rw [if_neg (by omega)]
  · intro w hw
    rw [hw]

/-- C5 witness: the spec's concrete scenario: 4 partitions and a composite
hash with `hash [7] = 23` give partition `23 mod 4 = 3`. -/
theorem claim5_witness :
    exampleHashHeader.getPartitionId exampleHashFn [7] = some 3 := by
  have h5 := (claim5_hash_mod exampleHashFn exampleHashHeader [7]
    (by decide) (by decide)).1
  rw [h5]
  decide

/-- C6: evaluation at the failing configuration.  The degenerate range
descriptor (one partition, zero boundary tuples) passes every check the
constructor itself performs, yet `getPartitionId` underflows the `end`
index to `2^64 - 1`, reads the boundary vector out of range (modelled as
`none`), and returns no partition id at all — so its result is not in
`[0, num_partitions)` as the claim requires. -/
theorem claim6_range_degenerate_out_of_range :
    RangeHeaderData.ctorDebugChecks natProvider degenerateRangeHeader = true ∧
    getPartitionIdOf exampleHashFn natProvider
      (.range degenerateRangeHeader) [0] = none ∧
    ¬(∃ m, getPartitionIdOf exampleHashFn natProvider
        (.range degenerateRangeHeader) [0] = some m ∧
      m < headerNumPartitions (PartitionSchemeHeaderModel.range
        (V := Nat) (T := Unit) degenerateRangeHeader)) := by
  refine ⟨?_, ?_, ?_⟩
  · simp [RangeHeaderData.ctorDebugChecks,
      RangeHeaderData.checkPartitionRangeBoundaries, degenerateRangeHeader,
      sizeTSub1, sizeTMod]
  · simp [getPartitionIdOf, RangeHeaderData.getPartitionId,
      degenerateRangeHeader, sizeTSub1, sizeTMod]
  · rintro ⟨m, hm, _⟩
    rw [show getPartitionIdOf exampleHashFn natProvider
        (.range degenerateRangeHeader) [0] = none by
      simp [getPartitionIdOf, RangeHeaderData.getPartitionId,
        degenerateRangeHeader, sizeTSub1, sizeTMod]] at hm
    cases hm

/-- C7: evaluation at the degenerate partition count.  A hash descriptor
with one partition does map every tuple to partition 0, and the degenerate
range descriptor is constructible (its constructor checks all pass), but
`getPartitionId` does not return 0 immediately: it computes
`end = size_t(0) - 1 = 2^64 - 1` and accesses
`partition_range_boundaries_[end]` out of range (modelled as `none`). -/
theorem claim7_partition_count_one :
    unitHashHeader.getPartitionId exampleHashFn [9] = some 0 ∧
    RangeHeaderData.ctorDebugChecks natProvider degenerateRangeHeader = true ∧
    sizeTSub1 degenerateRangeHeader.partition_range_boundaries.length =
      sizeTMod - 1 ∧
    degenerateRangeHeader.getPartitionId natProvider [9] = none := by
  refine ⟨?_, ?_, ?_, ?_⟩
  · simp [HashHeaderData.getPartitionId, unitHashHeader, exampleHashFn]
  · simp [RangeHeaderData.ctorDebugChecks,
      RangeHeaderData.checkPartitionRangeBoundaries, degenerateRangeHeader,
      sizeTSub1, sizeTMod]
  · simp [degenerateRangeHeader, sizeTSub1, sizeTMod]
  · simp [RangeHeaderData.getPartitionId, degenerateRangeHeader,
      sizeTSub1, sizeTMod]

/-- C8: when the constructor's validation checks pass (as they must in a
debug build for the object to exist), the descriptor invariant holds: the
boundary count is `num_partitions - 1`, every boundary tuple has the length
of the partitioning-attribute list, and the boundary tuples are strictly
ascending (fully, not only adjacently) under the lexicographic order. -/
theorem claim8_construction_invariant
    (p : CmpProvider V T) (h : RangeHeaderData V T) (laws : LawfulCmp p)
    (hP : 1 ≤ h.num_partitions) (hPM : h.num_partitions ≤ sizeTMod)
    (hchk : h.ctorDebugChecks p = true) :
    h.partition_range_boundaries.length = h.num_partitions - 1 ∧
    (∀ b ∈ h.partition_range_boundaries,
      b.length = h.partition_attribute_ids.length) ∧
    (∀ i j, i < j → j < h.partition_range_boundaries.length →
      lessThan p h (bnd h i) (bnd h j) = true) := by
  unfold RangeHeaderData.ctorDebugChecks at hchk
  rw [Bool.and_eq_true, Bool.and_eq_true] at hchk
  obtain ⟨⟨_, hBeq⟩, hC⟩ := hchk
  have hlen : h.partition_range_boundaries.length = h.num_partitions - 1 := by
    have hBeq2 : sizeTSub1 h.num_partitions =
        h.partition_range_boundaries.length := by simpa using hBeq
    rw [sizeTSub1_eq hP hPM] at hBeq2
    omega
  unfold RangeHeaderData.checkPartitionRangeBoundaries at hC
  rw [Bool.and_eq_true] at hC
  obtain ⟨hsizes, hadj⟩ := hC
  rw [List.all_eq_true] at hsizes hadj
  have hasc : ascendingBoundaries p h := by
    intro i hi
    have hmem : i + 1 ∈ List.range h.partition_range_boundaries.length :=
      List.mem_range.mpr hi
    have := hadj (i + 1) hmem
    rw [Bool.or_eq_true] at this
    rcases this with hzero | hlt
    · simp at hzero
    · simpa using hlt
  refine ⟨hlen, ?_, ?_⟩
  · intro b hb
    have hs := hsizes b hb
    have hs2 : h.partition_attribute_ids.length = b.length := by simpa using hs
    exact hs2.symm
  · intro i j hij hj
    exact bnd_lt_of_lt p h laws hasc hij hj

/-- C8 witness: the constructor checks pass on the 4-partition example
header, and the invariant instances follow through
`claim8_construction_invariant` (including the non-adjacent pair 0, 2). -/
theorem claim8_witness :
    exampleRangeHeader2.partition_range_boundaries.length =
      exampleRangeHeader2.num_partitions - 1 ∧
    lessThan natProvider exampleRangeHeader2 (bnd exampleRangeHeader2 0)
      (bnd exampleRangeHeader2 2) = true := by
  have h8 := claim8_construction_invariant natProvider exampleRangeHeader2
    natProvider_lawful (by decide) (by decide)
    (by
      simp [RangeHeaderData.ctorDebugChecks,
        RangeHeaderData.checkPartitionRangeBoundaries, exampleRangeHeader2,
        sizeTSub1, sizeTMod, bnd, lessThan, lessThanFrom, attrLess, attrEqual,
        natProvider, List.range_succ])
  exact ⟨h8.1, h8.2.2 0 2 (by decide) (by decide)⟩

/-- C9: round trip.  Reconstructing a descriptor from its serialized form
yields a descriptor behaviorally identical to the original: the same
`getPartitionId` result on every values-tuple, and the same strategy tag,
partition count and attribute ids.  (`getProto` / `ReconstructFromProto`
are modelled from the spec, their implementations being outside the given
sources.) -/
theorem claim9_roundtrip (hashCompositeKey : List V → Nat)
    (p : CmpProvider V T) (d : PartitionSchemeHeaderModel V T) :
    (∀ v, getPartitionIdOf hashCompositeKey p
        (reconstructFromProto (getProtoOf d)) v =
      getPartitionIdOf hashCompositeKey p d v) ∧
    headerPartitionType (reconstructFromProto (getProtoOf d)) =
      headerPartitionType d ∧
    headerNumPartitions (reconstructFromProto (getProtoOf d)) =
      headerNumPartitions d ∧
    headerAttributeIds (reconstructFromProto (getProtoOf d)) =
      headerAttributeIds d := by
  cases d with
  | hash hdr => exact ⟨fun _ => rfl, rfl, rfl, rfl⟩
  | range hdr => exact ⟨fun _ => rfl, rfl, rfl, rfl⟩

/-- C10: on a range descriptor with at least one boundary tuple, the
binary search always produces a result: either the early not-less-than-last
branch returns `num_partitions - 1`, or the loop (whose interval shrinks
strictly each iteration: `mid < end`, and both `mid - start` and
`end - (mid + 1)` are below `end - start`) converges to an index within the
boundary vector, and no boundary access is out of range (a `some` result). -/
theorem claim10_search_terminates
    (p : CmpProvider V T) (h : RangeHeaderData V T) (v : List V)
    (hlen1 : 1 ≤ h.partition_range_boundaries.length)
    (hlenM : h.partition_range_boundaries.length ≤ sizeTMod) :
    (∃ m, h.getPartitionId p v = some m ∧
      (m = sizeTSub1 h.num_partitions ∨
        m + 1 ≤ h.partition_range_boundaries.length)) ∧
    (∀ start e, start < e →
      start + (e - start) / 2 < e ∧
      (start + (e - start) / 2) - start < e - start ∧
      e - (start + (e - start) / 2 + 1) < e - start) := by
  constructor
  · have hsub := sizeTSub1_eq hlen1 hlenM
    unfold RangeHeaderData.getPartitionId
    rw [hsub, bnd_getElem h (by omega)]
    cases hlast : lessThan p h v
        (bnd h (h.partition_range_boundaries.length - 1))
    · exact ⟨sizeTSub1 h.num_partitions, by simp [hlast], Or.inl rfl⟩
    · obtain ⟨m, hm, _, h2⟩ := rangeSearchLoop_total p h v
        (h.partition_range_boundaries.length - 1) 0
        (h.partition_range_boundaries.length - 1) (by omega) (by omega)
        (by omega)
      exact ⟨m, by simp [hlast, hm], Or.inr (by omega)⟩
  · intro start e hse
    exact ⟨by omega, by omega, by omega⟩

/-- C10 witness: on the 3-partition example header the search returns a
partition id for `[1000]` (here the early branch, `num_partitions - 1`). -/
theorem claim10_witness :
    ∃ m, exampleRangeHeader.getPartitionId natProvider [1000] = some m ∧
      (m = sizeTSub1 exampleRangeHeader.num_partitions ∨
        m + 1 ≤ exampleRangeHeader.partition_range_boundaries.length) :=
  (claim10_search_terminates natProvider exampleRangeHeader [1000]
    (by decide) (by decide)).1

end Quickstep
